import Mathlib

/-!
Verification development for the macaron web framework's routing tree and
middleware dispatch engine.

The definitions below are a shallow embedding of the Go sources:
the pattern matcher and routing tree (tree.go), the wrapped response writer
(response_writer.go) and the dispatch context with its run loop and Next()
continuation (context.go).  Go strings are embedded as character lists,
Go maps from strings to strings as association lists, and the Go regexp
fragment actually used by the router (literals, '.', character-class
ranges such as [0-9], the '+' repetition and capture groups) as a small
backtracking engine with Go's leftmost, greedy semantics.  Recursive
functions carry an explicit fuel argument so that every definition is
structurally recursive and computable by the kernel; the public entry
points supply fuel that exceeds the recursion depth, so the fuel-exhausted
branches are unreachable.
-/

namespace Macaron

/-- Characters of a Go string.  The Go sources manipulate strings by index
and slice; a character list makes those operations structural. -/
abbrev Str := List Char

/-- Conversion from a Lean string literal to the character-list embedding. -/
def str (s : String) : Str := s.toList

/-- Go strings.TrimPrefix(s, "/"): drop one leading slash when present. -/
def trimLeadSlash : Str → Str
  | '/' :: rest => rest
  | s => s

/-- Go strings.TrimSuffix(s, "/"): drop one trailing slash when present. -/
def trimTrailSlash (s : Str) : Str :=
  if s.getLast? = some '/' then s.dropLast else s

/-- Go strings.TrimLeft(s, "?"): drop every leading question mark. -/
def trimLeadQm : Str → Str
  | '?' :: rest => trimLeadQm rest
  | s => s

/-- Go strings.Index(s, "/") combined with the two slices the router takes
around it: the segment before the first slash and the rest after it.
Returns none when the string has no slash. -/
def splitSlash : Str → Option (Str × Str)
  | [] => none
  | c :: rest =>
    if c = '/' then some ([], rest)
    else
      match splitSlash rest with
      | none => none
      | some (a, b) => some (c :: a, b)

/-- Go strings.LastIndex(url, ".") combined with the slices url[:j] and
url[j+1:]: the parts before and after the last dot, or none if absent. -/
def lastDotSplit : Str → Option (Str × Str)
  | [] => none
  | c :: rest =>
    match lastDotSplit rest with
    | some (a, b) => some (c :: a, b)
    | none => if c = '.' then some ([], rest) else none

/-- Whether p occurs at the start of s. -/
def strStarts : Str → Str → Bool
  | [], _ => true
  | _ :: _, [] => false
  | p :: ps, c :: cs => p = c && strStarts ps cs

/-- Go strings.Replace(s, old, new, 1): replace the first occurrence. -/
def replaceFirstStr : Str → Str → Str → Str
  | [], _, _ => []
  | c :: rest, old, new =>
    if strStarts old (c :: rest) then new ++ (c :: rest).drop old.length
    else c :: replaceFirstStr rest old new

/-- Fueled body of replaceAllStr; the fuel exceeds the scan length, and the
guard on a nonempty old matches every call site (the only caller replaces
the literal ":int"). -/
def replaceAllStrF : Nat → Str → Str → Str → Str
  | _, [], _, _ => []
  | 0, s, _, _ => s
  | f + 1, c :: rest, old, new =>
    if old ≠ [] ∧ strStarts old (c :: rest) then
      new ++ replaceAllStrF f ((c :: rest).drop old.length) old new
    else c :: replaceAllStrF f rest old new

/-- Go strings.Replace(s, old, new, -1): replace all occurrences. -/
def replaceAllStr (s old new : Str) : Str := replaceAllStrF s.length s old new

/-- Character class of the Go regexp [a-zA-Z0-9] used by wildcardPattern. -/
def isAlnumChar (c : Char) : Bool :=
  ('a' ≤ c && c ≤ 'z') || ('A' ≤ c && c ≤ 'Z') || ('0' ≤ c && c ≤ '9')

/-- Length of the maximal leading alphanumeric run. -/
def takeAlnumLen : Str → Nat
  | [] => 0
  | c :: rest => if isAlnumChar c then takeAlnumLen rest + 1 else 0

/-- Go wildcardPattern.FindStringIndex: index pair of the leftmost match of
the regexp ":[a-zA-Z0-9]+", i.e. the first colon followed by at least one
alphanumeric character, extended over the maximal alphanumeric run. -/
def findWildcardIdx : Str → Nat → Option (Nat × Nat)
  | [], _ => none
  | c :: rest, i =>
    if c = ':' ∧ 0 < takeAlnumLen rest then some (i, i + 1 + takeAlnumLen rest)
    else findWildcardIdx rest (i + 1)

/-- Decimal digits of a natural number, modelling com.ToStr on router glob
levels. -/
def natToStr (n : Nat) : Str := Nat.toDigits 10 n

/-! ### The Go regexp fragment used by the router

checkPattern compiles the transformed pattern with regexp.MustCompile and
matchLeaf/matchSubtree search with FindStringSubmatch, which finds the
leftmost match anywhere in the string (the router adds no anchors).  The
engine below covers the constructs those patterns use: literal characters,
'.', single-range character classes such as [0-9], the greedy '+'
repetition of a single-character atom, and capturing groups.  Constructs
outside the fragment are rejected by the parser. -/

/-- Single-character regexp atoms. -/
inductive RAtom where
  | lit (c : Char)
  | anyChar
  | cls (lo hi : Char)

/-- Regexp syntax items: an atom, a greedy repetition of an atom, or a
capturing group. -/
inductive RItem where
  | atom (a : RAtom)
  | plus (a : RAtom)
  | group (items : List RItem)

/-- Compiled regexp: the parsed items plus a fuel bound for the matcher
that exceeds the number of syntax nodes (the parser sets it from the
source text length). -/
structure Regex where
  items : List RItem
  depth : Nat

/-- Whether an atom matches one character; '.' does not match a newline,
as in Go. -/
def atomMatches (a : RAtom) (c : Char) : Bool :=
  match a with
  | .lit c' => c = c'
  | .anyChar => c ≠ '\n'
  | .cls lo hi => lo ≤ c && c ≤ hi

/-- Remainders after consuming one or more atom matches, longest
consumption first (greedy preference order). -/
def matchPlus (a : RAtom) : Str → List Str
  | [] => []
  | c :: rest => if atomMatches a c then matchPlus a rest ++ [rest] else []

/-- Candidate outcomes of matching an item sequence at the start of s, in
backtracking preference order: each outcome is the remaining suffix and
the capture list (group captures in open-paren order).  Every recursive
call passes strictly smaller syntax, so fuel larger than the number of
syntax nodes is never exhausted. -/
def matchSeqF : Nat → List RItem → Str → List (Str × List Str)
  | _, [], s => [(s, [])]
  | 0, _ :: _, _ => []
  | f + 1, .atom a :: rest, s =>
    match s with
    | [] => []
    | c :: s' => if atomMatches a c then matchSeqF f rest s' else []
  | f + 1, .plus a :: rest, s => (matchPlus a s).flatMap (fun s' => matchSeqF f rest s')
  | f + 1, .group g :: rest, s =>
    (matchSeqF f g s).flatMap (fun p =>
      (matchSeqF f rest p.1).map (fun q =>
        (q.1, (s.take (s.length - p.1.length) :: p.2) ++ q.2)))

/-- Search for the leftmost starting position where the items match,
returning the full matched text followed by the group captures. -/
def findFromPos (r : Regex) : Str → Option (List Str)
  | [] =>
    match matchSeqF r.depth r.items [] with
    | p :: _ => some (([] : Str).take (0 - p.1.length) :: p.2)
    | [] => none
  | c :: rest =>
    match matchSeqF r.depth r.items (c :: rest) with
    | p :: _ => some ((c :: rest).take ((c :: rest).length - p.1.length) :: p.2)
    | [] => findFromPos r rest

/-- Go regexp.FindStringSubmatch: none when there is no match anywhere in
s, otherwise the full match followed by the captures of each group. -/
def findStringSubmatch (r : Regex) (s : Str) : Option (List Str) := findFromPos r s

mutual

/-- Parse one primary item starting with character c: a group, a
character-class range, '.', or a literal.  Repetition operators without an
argument and constructs outside the modelled fragment are rejected, as
regexp.MustCompile rejects the former. -/
def parsePrimary : Nat → Char → Str → Option (RItem × Str)
  | 0, _, _ => none
  | f + 1, c, rest =>
    if c = '(' then
      match parseItems f rest with
      | some (inner, ')' :: r2) => some (.group inner, r2)
      | _ => none
    else if c = '[' then
      match rest with
      | lo :: '-' :: hi :: ']' :: r2 => some (.atom (.cls lo hi), r2)
      | _ => none
    else if c = '.' then some (.atom .anyChar, rest)
    else if c = '+' ∨ c = '*' ∨ c = '?' ∨ c = ']' ∨ c = '\\' ∨ c = '|' ∨ c = '^' ∨ c = '$' then
      none
    else some (.atom (.lit c), rest)

/-- Parse a sequence of items up to a closing parenthesis or the end of the
input; the closing parenthesis is left unconsumed. -/
def parseItems : Nat → Str → Option (List RItem × Str)
  | _, [] => some ([], [])
  | 0, _ :: _ => none
  | f + 1, c :: rest =>
    if c = ')' then some ([], c :: rest)
    else
      match parsePrimary f c rest with
      | none => none
      | some (base, r1) =>
        match r1 with
        | '+' :: r2 =>
          match base with
          | .atom a =>
            (match parseItems f r2 with
             | some (items, rem) => some (RItem.plus a :: items, rem)
             | none => none)
          | _ => none
        | _ =>
          match parseItems f r1 with
          | some (items, rem) => some (base :: items, rem)
          | none => none

end

/-- Model of Go regexp.Compile on the fragment the router uses: none
models a compile error (regexp.MustCompile panics). -/
def compileRegex (s : Str) : Option Regex :=
  match parseItems (s.length + 1) s with
  | some (items, []) => some { items := items, depth := s.length + 1 }
  | _ => none

/-! ### Pattern classification (tree.go: patternType, getNextWildcard,
getWildcards, checkPattern, NewLeaf) -/

/-- Pattern kinds in source order: _PATTERN_STATIC, _PATTERN_REGEXP,
_PATTERN_PATH_EXT, _PATTERN_HOLDER, _PATTERN_MATCH_ALL. -/
inductive PatternType where
  | static
  | regexp
  | pathExt
  | holder
  | matchAll
deriving DecidableEq

/-- Numeric rank of a pattern kind, matching the Go iota order used by the
sorted-insertion comparisons. -/
def PatternType.rank : PatternType → Nat
  | .static => 0
  | .regexp => 1
  | .pathExt => 2
  | .holder => 3
  | .matchAll => 4

/-- Go getNextWildcard: find the next :name wildcard, returning it together
with the pattern updated with the corresponding regexp text. -/
def getNextWildcard (pattern : Str) : Str × Str :=
  match findWildcardIdx pattern 0 with
  | none => ([], pattern)
  | some (p0, p1) =>
    let wildcard := (pattern.drop p0).take (p1 - p0)
    if pattern.length = p1 then
      (wildcard, replaceFirstStr pattern wildcard (str "(.+)"))
    else if pattern.getD p1 ' ' ≠ '(' then
      if p1 + 4 ≤ pattern.length ∧ (pattern.drop p1).take 4 = str ":int" then
        let p' := replaceAllStr pattern (str ":int") (str "([0-9]+)")
        (wildcard, p'.take p0 ++ p'.drop p1)
      else (wildcard, replaceFirstStr pattern wildcard (str "(.+)"))
    else (wildcard, pattern.take p0 ++ pattern.drop p1)

/-- Fueled body of getWildcards.  Every iteration with a nonempty wildcard
removes at least one colon from the pattern and the replacement texts
contain no colon, so fuel exceeding the colon count is never exhausted. -/
def getWildcardsAux : Nat → Str → List Str → Str × List Str
  | 0, pattern, acc => (pattern, acc)
  | f + 1, pattern, acc =>
    let (w, pattern') := getNextWildcard pattern
    if 0 < w.length then getWildcardsAux f pattern' (acc ++ [w])
    else (pattern', acc)

/-- Go getWildcards: keep taking the next wildcard until nothing is left,
returning the transformed pattern and the wildcard names in order. -/
def getWildcards (pattern : Str) : Str × List Str :=
  getWildcardsAux (pattern.count ':' + 1) pattern []

/-- Go checkPattern: classify a raw pattern segment; for the regexp kind,
compile the transformed pattern.  The error value models the panic raised
by regexp.MustCompile on a malformed pattern. -/
def checkPattern (pattern : Str) :
    Except String (PatternType × List Str × Option Regex) :=
  let p := trimLeadQm pattern
  if p = str "*" then .ok (.matchAll, [], none)
  else if p = str "*.*" then .ok (.pathExt, [], none)
  else if p.contains ':' then
    match getWildcards p with
    | (p', wildcards) =>
      if p' = str "(.+)" then .ok (.holder, wildcards, none)
      else
        match compileRegex p' with
        | some r => .ok (.regexp, wildcards, some r)
        | none => .error "regexp compile error at route registration"
  else .ok (.static, [], none)

/-- Handlers are opaque in this model: the embedding tracks their identity
only, the Go Handle being a function value. -/
abbrev Handle := Nat

/-- A leaf of the routing tree.  The Go struct also carries a parent
pointer, used only to walk upward when registering optional leaves; the
embedding passes that context explicitly in addLeaf/addSubtree instead. -/
structure Leaf where
  typ : PatternType
  pattern : Str
  wildcards : List Str
  reg : Option Regex
  optional : Bool
  name : Str
  handle : Handle

/-- Go NewLeaf: classify the pattern and remember whether it carried a
leading question mark.  The stored pattern is the raw one, question mark
included. -/
def NewLeaf (pattern name : Str) (handle : Handle) : Except String Leaf :=
  match checkPattern pattern with
  | .error e => .error e
  | .ok (typ, wildcards, reg) =>
    .ok { typ := typ, pattern := pattern, wildcards := wildcards, reg := reg,
          optional := pattern.headD ' ' = '?' ∧ pattern ≠ [], name := name, handle := handle }

/-- A routing tree node (Go Tree struct, minus the navigational parent
pointer, which the add functions replace with explicit context). -/
inductive Tree where
  | node (typ : PatternType) (pattern : Str) (wildcards : List Str)
      (reg : Option Regex) (subtrees : List Tree) (leaves : List Leaf)

def Tree.typ : Tree → PatternType
  | .node t _ _ _ _ _ => t

def Tree.pattern : Tree → Str
  | .node _ p _ _ _ _ => p

def Tree.wildcards : Tree → List Str
  | .node _ _ w _ _ _ => w

def Tree.reg : Tree → Option Regex
  | .node _ _ _ r _ _ => r

def Tree.subtrees : Tree → List Tree
  | .node _ _ _ _ s _ => s

def Tree.leaves : Tree → List Leaf
  | .node _ _ _ _ _ l => l

def Tree.withLeaves : Tree → List Leaf → Tree
  | .node t p w r s _, l => .node t p w r s l

def Tree.withSubtrees : Tree → List Tree → Tree
  | .node t p w r _ l, s => .node t p w r s l

/-- Go NewSubtree: a node classified from its pattern with empty children. -/
def NewSubtree (pattern : Str) : Except String Tree :=
  match checkPattern pattern with
  | .error e => .error e
  | .ok (typ, wildcards, reg) => .ok (.node typ pattern wildcards reg [] [])

/-- Go NewTree: the root node, an empty static pattern. -/
def NewTree : Tree := .node .static [] [] none [] []

/-! ### Route registration (tree.go: addLeaf, addSubtree, addNextSegment,
Add) -/

/-- Whether a leaf with exactly this raw pattern is already registered
(the duplicate check at the top of Go addLeaf). -/
def leafDup : List Leaf → Str → Bool
  | [], _ => false
  | l :: ls, p => if l.pattern = p then true else leafDup ls p

/-- Sorted insertion of a leaf: before the first leaf of strictly greater
kind rank, mirroring the insertion loop of Go addLeaf. -/
def insertLeafSorted : List Leaf → Leaf → List Leaf
  | [], leaf => [leaf]
  | l :: rest, leaf =>
    if leaf.typ.rank < l.typ.rank then leaf :: l :: rest
    else l :: insertLeafSorted rest leaf

/-- Sorted insertion of a subtree: before the first subtree of strictly
greater kind rank, mirroring the insertion loop of Go addSubtree. -/
def insertSubtreeSorted : List Tree → Tree → List Tree
  | [], sub => [sub]
  | t :: rest, sub =>
    if sub.typ.rank < t.typ.rank then sub :: t :: rest
    else t :: insertSubtreeSorted rest sub

/-- First child whose pattern equals the segment, returned as the
decomposition (children before it, the child, children after it); this is
the linear scan at the top of Go addSubtree. -/
def findChild : List Tree → Str → Option (List Tree × Tree × List Tree)
  | [], _ => none
  | c :: cs, segment =>
    if c.pattern = segment then some ([], c, cs)
    else
      match findChild cs segment with
      | none => none
      | some (pre, x, post) => some (c :: pre, x, post)

/-- Go addLeaf.  isRoot records whether t is the root (Go: t.parent is
nil).  The third component of the result is the pattern that the caller
must register one level up: Go walks the parent pointer for an optional
leaf, the embedding returns the request to the caller instead.  For the
root, Go adds the equivalent leaf to the root itself under the empty
pattern. -/
def Tree.addLeaf (t : Tree) (isRoot : Bool) (pattern name : Str) (handle : Handle) :
    Except String (Tree × Bool × Option Str) :=
  if leafDup t.leaves pattern then .ok (t, true, none)
  else
    match NewLeaf pattern name handle with
    | .error e => .error e
    | .ok leaf =>
      if leaf.optional then
        if isRoot then
          -- Go: parent.addLeaf("", name, handle); the empty pattern is
          -- static and never optional, so that call is a plain insert.
          let t1 :=
            if leafDup t.leaves [] then t
            else
              match NewLeaf [] name handle with
              | .ok emptyLeaf => t.withLeaves (insertLeafSorted t.leaves emptyLeaf)
              | .error _ => t
          .ok (t1.withLeaves (insertLeafSorted t1.leaves leaf), false, none)
        else
          .ok (t.withLeaves (insertLeafSorted t.leaves leaf), false, some t.pattern)
      else .ok (t.withLeaves (insertLeafSorted t.leaves leaf), false, none)

mutual

/-- Go addNextSegment: strip one leading slash, then either register a
leaf (no slash left) or descend into a subtree for the first segment.
Fuel exceeding the pattern length is never exhausted, since each level
consumes at least one character. -/
def Tree.addNextSegment (fuel : Nat) (t : Tree) (isRoot : Bool)
    (pattern name : Str) (handle : Handle) :
    Except String (Tree × Bool × Option Str) :=
  match fuel with
  | 0 => .error "registration fuel exhausted"
  | f + 1 =>
    let p := trimLeadSlash pattern
    match splitSlash p with
    | none => t.addLeaf isRoot p name handle
    | some (seg, rest) => Tree.addSubtree f t isRoot seg rest name handle

/-- Go addSubtree: recurse into the first child whose pattern equals the
segment, creating and sort-inserting a fresh subtree when none exists.  A
leaf-registration request bubbled up from the child (the optional-leaf
walk) is served by addLeaf on this node, and any request that produces is
bubbled further up. -/
def Tree.addSubtree (fuel : Nat) (t : Tree) (isRoot : Bool)
    (segment pattern name : Str) (handle : Handle) :
    Except String (Tree × Bool × Option Str) :=
  match fuel with
  | 0 => .error "registration fuel exhausted"
  | f + 1 =>
    match findChild t.subtrees segment with
    | some (pre, child, post) =>
      match Tree.addNextSegment f child false pattern name handle with
      | .error e => .error e
      | .ok (child', dup, bub) =>
        let t' := t.withSubtrees (pre ++ child' :: post)
        match bub with
        | none => .ok (t', dup, none)
        | some q =>
          match t'.addLeaf isRoot q name handle with
          | .error e => .error e
          | .ok (t'', _, bub') => .ok (t'', dup, bub')
    | none =>
      match NewSubtree segment with
      | .error e => .error e
      | .ok sub =>
        match Tree.addNextSegment f sub false pattern name handle with
        | .error e => .error e
        | .ok (sub', dup, bub) =>
          let t' := t.withSubtrees (insertSubtreeSorted t.subtrees sub')
          match bub with
          | none => .ok (t', dup, none)
          | some q =>
            match t'.addLeaf isRoot q name handle with
            | .error e => .error e
            | .ok (t'', _, bub') => .ok (t'', dup, bub')

end

/-- Go Tree.Add: strip one trailing slash and register from the root.
The error value models the registration-time panic of a malformed regexp
pattern; the boolean is the duplicate signal of addLeaf. -/
def Tree.Add (t : Tree) (pattern name : Str) (handle : Handle) :
    Except String (Tree × Bool) :=
  match Tree.addNextSegment ((trimTrailSlash pattern).length + 1) t true
      (trimTrailSlash pattern) name handle with
  | .error e => .error e
  | .ok (t', dup, _) => .ok (t', dup)

mutual

/-- Read-only mirror of the walk addNextSegment performs, reporting
whether a leaf with this raw pattern is already registered at the node the
walk reaches; consumed by the idempotence theorem. -/
def Tree.hasPat (fuel : Nat) (t : Tree) (pattern : Str) : Bool :=
  match fuel with
  | 0 => false
  | f + 1 =>
    let p := trimLeadSlash pattern
    match splitSlash p with
    | none => leafDup t.leaves p
    | some (seg, rest) => Tree.hasPatSub f t seg rest

/-- Read-only mirror of the subtree step of the walk. -/
def Tree.hasPatSub (fuel : Nat) (t : Tree) (segment pattern : Str) : Bool :=
  match fuel with
  | 0 => false
  | f + 1 =>
    match findChild t.subtrees segment with
    | some (_, child, _) => Tree.hasPat f child pattern
    | none => false

end

/-- Whether the route pattern is already registered, mirroring the walk of
Tree.Add with the same fuel. -/
def Tree.hasRoute (t : Tree) (pattern : Str) : Bool :=
  Tree.hasPat ((trimTrailSlash pattern).length + 1) t (trimTrailSlash pattern)

/-! ### Request matching (tree.go: matchLeaf, matchSubtree,
matchNextSegment, Match).

Params is a Go map mutated in place, so a failed attempt that already
stored captures leaves them in the map; the embedding threads the
parameter list through failures to preserve that behaviour. -/

/-- Captured parameters: association list from names to values, insertion
replacing an existing binding. -/
abbrev Params := List (Str × Str)

/-- Store one binding (Go map assignment). -/
def paramsSet : Params → Str → Str → Params
  | [], k, v => [(k, v)]
  | (k', v') :: rest, k, v =>
    if k' = k then (k, v) :: rest else (k', v') :: paramsSet rest k v

/-- Store a list of bindings in order. -/
def paramsSetAll (ps : Params) (kvs : List (Str × Str)) : Params :=
  kvs.foldl (fun acc kv => paramsSet acc kv.1 kv.2) ps

/-- Synthetic key for a catch-all capture: "*" followed by the decimal
glob level (Go: "*" + com.ToStr(globLevel)). -/
def globKey (globLevel : Nat) : Str := '*' :: natToStr globLevel

/-- Go matchLeaf: try each leaf in list order.  A static leaf requires the
raw stored pattern to equal the segment; a regexp leaf requires the
FindStringSubmatch result count to be one more than the wildcard count
(otherwise fall through to the next leaf); the remaining kinds always
match.  Go indexes wildcards[0] for a holder leaf, which by construction
is nonempty; the embedding takes the head with a default. -/
def matchLeaf : List Leaf → Nat → Str → Params → Option (Handle × Params)
  | [], _, _, _ => none
  | l :: ls, globLevel, url, params =>
    match l.typ with
    | .static =>
      if l.pattern = url then some (l.handle, params)
      else matchLeaf ls globLevel url params
    | .regexp =>
      match l.reg with
      | none => matchLeaf ls globLevel url params
      | some r =>
        match findStringSubmatch r url with
        | none => matchLeaf ls globLevel url params
        | some res =>
          if res.length = l.wildcards.length + 1 then
            some (l.handle, paramsSetAll params (l.wildcards.zip res.tail))
          else matchLeaf ls globLevel url params
    | .pathExt =>
      match lastDotSplit url with
      | some (a, b) =>
        some (l.handle, paramsSet (paramsSet params (str ":path") a) (str ":ext") b)
      | none => some (l.handle, paramsSet params (str ":path") url)
    | .holder => some (l.handle, paramsSet params (l.wildcards.headD []) url)
    | .matchAll => some (l.handle, paramsSet params (globKey globLevel) url)

/-- The child loop of Go matchSubtree, abstracted over the recursive
descent into a child.  A static child must equal the segment before
recursing; a regexp child must pass the submatch-count check, storing its
captures before recursing (they stay stored when the recursion fails);
holder and catch-all children always recurse with the glob level raised,
storing the segment capture only on success.  A path-extension child has
no case in the Go switch. -/
def matchSubtreesGo (descend : Tree → Nat → Str → Params → Option Handle × Params) :
    List Tree → Nat → Str → Str → Params → Option Handle × Params
  | [], _, _, _, params => (none, params)
  | c :: cs, globLevel, segment, url, params =>
    match c.typ with
    | .static =>
      if c.pattern = segment then
        match descend c globLevel url params with
        | (some h, ps) => (some h, ps)
        | (none, ps) => matchSubtreesGo descend cs globLevel segment url ps
      else matchSubtreesGo descend cs globLevel segment url params
    | .regexp =>
      match c.reg with
      | none => matchSubtreesGo descend cs globLevel segment url params
      | some r =>
        match findStringSubmatch r segment with
        | none => matchSubtreesGo descend cs globLevel segment url params
        | some res =>
          if res.length = c.wildcards.length + 1 then
            match descend c globLevel url (paramsSetAll params (c.wildcards.zip res.tail)) with
            | (some h, ps) => (some h, ps)
            | (none, ps) => matchSubtreesGo descend cs globLevel segment url ps
          else matchSubtreesGo descend cs globLevel segment url params
    | .pathExt => matchSubtreesGo descend cs globLevel segment url params
    | .holder =>
      match descend c (globLevel + 1) url params with
      | (some h, ps) => (some h, paramsSet ps (c.wildcards.headD []) segment)
      | (none, ps) => matchSubtreesGo descend cs globLevel segment url ps
    | .matchAll =>
      match descend c (globLevel + 1) url params with
      | (some h, ps) => (some h, paramsSet ps (globKey globLevel) segment)
      | (none, ps) => matchSubtreesGo descend cs globLevel segment url ps

mutual

/-- Go matchNextSegment: no slash left means the leaf level, otherwise
split off the first segment and match the subtrees.  Fuel is consumed only
when descending past a segment, and the url loses at least one character
each time, so the fuel Match supplies is never exhausted. -/
def Tree.matchNextSegment (fuel : Nat) (t : Tree) (globLevel : Nat)
    (url : Str) (params : Params) : Option Handle × Params :=
  match fuel with
  | 0 => (none, params)
  | f + 1 =>
    match splitSlash url with
    | none =>
      match matchLeaf t.leaves globLevel url params with
      | some (h, ps) => (some h, ps)
      | none => (none, params)
    | some (seg, rest) => Tree.matchSubtree f t globLevel seg rest params

/-- Go matchSubtree: try each child in order; when none matches, fall back
to the last registered leaf if it is a path-extension or catch-all
pattern, which then swallows the whole remaining path. -/
def Tree.matchSubtree (fuel : Nat) (t : Tree) (globLevel : Nat)
    (segment url : Str) (params : Params) : Option Handle × Params :=
  match fuel with
  | 0 => (none, params)
  | f + 1 =>
    match matchSubtreesGo (fun c gl u ps => Tree.matchNextSegment f c gl u ps)
        t.subtrees globLevel segment url params with
    | (some h, ps) => (some h, ps)
    | (none, ps) =>
      match t.leaves.getLast? with
      | none => (none, ps)
      | some leaf =>
        if leaf.typ = .pathExt then
          match lastDotSplit (segment ++ '/' :: url) with
          | some (a, b) =>
            (some leaf.handle,
             paramsSet (paramsSet ps (str ":path") a) (str ":ext") b)
          | none =>
            (some leaf.handle, paramsSet ps (str ":path") (segment ++ '/' :: url))
        else if leaf.typ = .matchAll then
          (some leaf.handle, paramsSet ps (globKey globLevel) (segment ++ '/' :: url))
        else (none, ps)

end

/-- Fuel for the matching walk: two units are consumed per segment
descended past, and the url shrinks with each descent, so this bound is
never exhausted. -/
def matchFuel (url : Str) : Nat := 2 * url.length + 4

/-- Go Tree.Match: strip one leading and one trailing slash, then walk the
tree with a fresh parameter map, returning the matched handle (none models
the found=false result) together with the parameters. -/
def Tree.Match (t : Tree) (url : String) : Option Handle × Params :=
  Tree.matchNextSegment (matchFuel (trimTrailSlash (trimLeadSlash (str url)))) t 0
    (trimTrailSlash (trimLeadSlash (str url))) []

/-! ### The wrapped response writer (response_writer.go)

The beforeFuncs mechanism is not modelled: nothing in the dispatch claims
registers a BeforeFunc, and callBefore over the empty registration list is
a no-op.  The underlying http.ResponseWriter is modelled by the bytes
forwarded to it; its Write is assumed to accept every byte, as the
recorder used by the callers does. -/

/-- State of the Go responseWriter struct: the request method, the
recorded status (0 until written), the accumulated size, and the bytes
forwarded to the underlying writer. -/
structure RW where
  method : String
  status : Nat
  size : Nat
  out : String

/-- Go NewResponseWriter: wraps a fresh underlying writer for a request
method, with zero status and size. -/
def NewResponseWriter (method : String) : RW :=
  { method := method, status := 0, size := 0, out := "" }

/-- Go responseWriter.Written: the status is nonzero. -/
def RW.Written (rw : RW) : Bool := rw.status ≠ 0

/-- Go responseWriter.WriteHeader: record the status (callBefore is a
no-op with no registered BeforeFuncs). -/
def RW.WriteHeader (rw : RW) (s : Nat) : RW := { rw with status := s }

/-- Go responseWriter.Write: set the implicit 200 status on the first
write, then forward the bytes and count them unless the method is HEAD;
returns the size written by this call together with the new state. -/
def RW.Write (rw : RW) (b : String) : Nat × RW :=
  let rw1 := if rw.Written then rw else rw.WriteHeader 200
  if rw1.method ≠ "HEAD" then
    (b.length, { rw1 with size := rw1.size + b.length, out := rw1.out ++ b })
  else (0, rw1)

/-- Operations a handler can perform on the response writer, used to
quantify over call sequences. -/
inductive WOp where
  | write (b : String)
  | writeHeader (s : Nat)

/-- Apply one operation to the writer state. -/
def RW.applyOp (rw : RW) : WOp → RW
  | .write b => (rw.Write b).2
  | .writeHeader s => rw.WriteHeader s

/-- Apply a sequence of operations in order. -/
def RW.applyOps (rw : RW) (ops : List WOp) : RW := ops.foldl RW.applyOp rw

/-! ### The dispatch context (context.go: Context, handler, Next, run)

Handlers are embedded as the sequences of observable actions the dispatch
claims exercise: appending to an external result buffer, writing to the
response, setting the response status, and calling Next().  Handler return
values and the ReturnHandler service are outside the model: every
embedded handler returns nothing, so the vals branch of run is inert.
The invoked field records, in order, the handler indices the run loop has
invoked (the index equal to the handler count standing for the terminal
action), observing which handlers execute. -/

/-- Actions a handler body performs, in order. -/
inductive HAction where
  | writeBuf (s : String)
  | writeResp (s : String)
  | writeHeader (s : Nat)
  | next

/-- State of the Go Context relevant to dispatch: the handler chain, the
terminal action, the index cursor, the wrapped response writer, the
external result buffer the test middleware write to, and the invocation
log. -/
structure Context where
  handlers : List (List HAction)
  action : List HAction
  index : Nat
  resp : RW
  buf : String
  invoked : List Nat

/-- Go Context.handler: the handler at the cursor, the terminal action
when the cursor is just past the chain, and none modelling the panic on a
larger index (unreachable from run, whose loop guard stops earlier). -/
def Context.handler (c : Context) : Option (List HAction) :=
  if c.index < c.handlers.length then c.handlers[c.index]?
  else if c.index = c.handlers.length then some c.action
  else none

/-- Go Context.Written. -/
def Context.Written (c : Context) : Bool := c.resp.Written

mutual

/-- Execution of a handler body.  writeBuf appends to the external buffer,
writeResp and writeHeader act on the response writer, and next is Go
Context.Next(): increment the index and immediately re-enter the run
loop, so the actions after next resume only when the loop returns.  Fuel
is consumed on every step; run supplies more than the chain can use. -/
def execActs : Nat → List HAction → Context → Option Context
  | _, [], c => some c
  | 0, _ :: _, _ => none
  | f + 1, a :: rest, c =>
    match a with
    | .writeBuf s => execActs f rest { c with buf := c.buf ++ s }
    | .writeResp s => execActs f rest { c with resp := (c.resp.Write s).2 }
    | .writeHeader s => execActs f rest { c with resp := c.resp.WriteHeader s }
    | .next =>
      match Context.run f { c with index := c.index + 1 } with
      | some c' => execActs f rest c'
      | none => none

/-- Go Context.run: while the index is at most the handler count, invoke
the handler at the cursor (logging its index), advance the index, and
stop as soon as the response has been written; the handler itself may
have advanced the index through Next() before the increment. -/
def Context.run : Nat → Context → Option Context
  | 0, _ => none
  | f + 1, c =>
    if c.index ≤ c.handlers.length then
      match c.handler with
      | none => none
      | some h =>
        match execActs f h { c with invoked := c.invoked ++ [c.index] } with
        | none => none
        | some c1 =>
          let c2 := { c1 with index := c1.index + 1 }
          if c2.Written then some c2
          else Context.run f c2
    else some c

end

/-- Fuel sufficient for a whole dispatch: each loop iteration and each
handler action consumes at most one unit per handler step. -/
def runFuel (c : Context) : Nat :=
  ((c.handlers.map List.length).sum + c.action.length + c.handlers.length + 2) * 4 + 8

/-! ### Predicates and pure views used by the theorems -/

/-- The per-leaf acceptance test of matchLeaf, as a predicate: a static
leaf accepts exactly its raw stored pattern, a regexp leaf accepts when
the unanchored search succeeds with one more result than it has
wildcards, and the remaining kinds accept everything. -/
def leafAccepts (l : Leaf) (url : Str) : Bool :=
  match l.typ with
  | .static => decide (l.pattern = url)
  | .regexp =>
    match l.reg with
    | none => false
    | some r =>
      match findStringSubmatch r url with
      | some res => decide (res.length = l.wildcards.length + 1)
      | none => false
  | _ => true

/-- Leaves ordered by nondecreasing kind rank, the invariant the sorted
insertion of addLeaf maintains. -/
def sortedByRank : List Leaf → Bool
  | [] => true
  | [_] => true
  | a :: b :: rest => decide (a.typ.rank ≤ b.typ.rank) && sortedByRank (b :: rest)

/-- Whether a handler action is a Next() call. -/
def isNext : HAction → Bool
  | .next => true
  | _ => false

/-- Whether a handler action writes response body bytes. -/
def isWriteResp : HAction → Bool
  | .writeResp _ => true
  | _ => false

/-- Whether a handler action sets an explicit response status. -/
def isWriteHeader : HAction → Bool
  | .writeHeader _ => true
  | _ => false

/-- Pure effect of a Next-free handler body on the response writer. -/
def applyToResp : List HAction → RW → RW
  | [], rw => rw
  | .writeBuf _ :: rest, rw => applyToResp rest rw
  | .writeResp s :: rest, rw => applyToResp rest (rw.Write s).2
  | .writeHeader s :: rest, rw => applyToResp rest (rw.WriteHeader s)
  | .next :: rest, rw => applyToResp rest rw

/-- Pure effect of a Next-free handler body on the external buffer. -/
def applyToBuf : List HAction → String → String
  | [], b => b
  | .writeBuf s :: rest, b => applyToBuf rest (b ++ s)
  | _ :: rest, b => applyToBuf rest b

/-! ### Concrete fixtures used by the closed theorems and witnesses -/

/-- The tree of P3: the route /user/:id([0-9]+) registered on a fresh
tree, its handle identified as 7. -/
def userIdTree : Except String (Tree × Bool) :=
  Tree.Add NewTree (str "/user/:id([0-9]+)") [] 7

/-- The tree of P4: the route /static/* registered on a fresh tree, its
handle identified as 5. -/
def staticGlobTree : Except String (Tree × Bool) :=
  Tree.Add NewTree (str "/static/*") [] 5

/-- The optional route /user/?news registered on a fresh tree, its handle
identified as 9. -/
def optionalNewsTree : Except String (Tree × Bool) :=
  Tree.Add NewTree (str "/user/?news") [] 9

/-- Middleware A of P6: writes "foo", calls Next(), writes "ban". -/
def mwA : List HAction := [.writeBuf "foo", .next, .writeBuf "ban"]

/-- Middleware B of P6: writes "bar", calls Next(), writes "baz". -/
def mwB : List HAction := [.writeBuf "bar", .next, .writeBuf "baz"]

/-- The dispatch context of P6: chain [A, B], terminal action writing
"bat", fresh response writer, empty buffer. -/
def wrapCtx : Context :=
  { handlers := [mwA, mwB], action := [.writeBuf "bat"], index := 0,
    resp := NewResponseWriter "GET", buf := "", invoked := [] }

/-- A context whose first middleware writes the response body and does not
call Next(), with two more stages pending. -/
def earlyWriteCtx : Context :=
  { handlers := [[.writeResp "Hello world"], [.writeBuf "bat"]],
    action := [.writeBuf "baz"], index := 0,
    resp := NewResponseWriter "GET", buf := "", invoked := [] }

/-- A static leaf for the final segment "user", handle 1. -/
def staticUserLeaf : Leaf :=
  { typ := .static, pattern := str "user", wildcards := [], reg := none,
    optional := false, name := [], handle := 1 }

/-- A catch-all leaf on the same node, handle 2. -/
def catchAllLeaf : Leaf :=
  { typ := .matchAll, pattern := str "*", wildcards := [], reg := none,
    optional := false, name := [], handle := 2 }

/-- A root node holding a static leaf and a catch-all leaf for the same
final segment, in rank order. -/
def specificAndCatchTree : Tree :=
  .node .static [] [] none [] [staticUserLeaf, catchAllLeaf]

/-! ### Claim theorems -/

/-- C1: with middleware A writing "foo" before Next() and "ban" after,
middleware B writing "bar" before Next() and "baz" after, and the
terminal action writing "bat", Context.run produces the buffer
"foobarbatbazban" and invokes stages 0, 1 and the terminal action (index
2) in that order: the code after Next() runs only once all downstream
handlers and the terminal action have returned (nested wrap order, not
flat sequential order). -/
theorem run_wrap_order :
    (Context.run (runFuel wrapCtx) wrapCtx).map (fun c => (c.buf, c.invoked)) =
      some ("foobarbatbazban", [0, 1, 2]) := rfl

/-- C4 counterexample: for the tree holding /user/:id([0-9]+), the claim
says Match("/user/x42y") yields not-found because the regex is anchored;
in fact the compiled regex is unanchored, FindStringSubmatch finds "42"
inside the segment, and the match succeeds with :id bound to "42". -/
theorem regexp_unanchored_counterexample :
    (match userIdTree with
     | .ok (t, _) => some (t.Match "/user/x42y")
     | .error _ => none) = some (some 7, [(str ":id", str "42")]) := rfl

/-- C4 amended: a RegexCapture leaf accepts a URL segment whenever its
compiled regex, which is unanchored, finds a match anywhere in the
segment with submatch count equal to the declared wildcard count; thus
/user/42 matches with :id = "42", /user/x42y also matches with :id =
"42", and /user/abc is not-found because no digits occur in the
segment. -/
theorem regexp_unanchored_submatch :
    (match userIdTree with
     | .ok (t, _) =>
       some (t.Match "/user/42", t.Match "/user/x42y", (t.Match "/user/abc").1)
     | .error _ => none) =
      some ((some 7, [(str ":id", str "42")]),
            (some 7, [(str ":id", str "42")]), none) := rfl

/-- C5: for the tree holding /user/:id([0-9]+), Match("/user/42")
succeeds with params binding :id to "42", and Match("/user/abc") reports
not-found because the digit-only regex finds nothing in the segment. -/
theorem capture_user_id :
    (match userIdTree with
     | .ok (t, _) => some (t.Match "/user/42", (t.Match "/user/abc").1)
     | .error _ => none) =
      some ((some 7, [(str ":id", str "42")]), none) := rfl

/-- C6: for the tree holding only /static/*, Match("/static/a/b/c")
succeeds and the catch-all capture stored under the depth-indexed
synthetic key *0 is the entire remaining path "a/b/c". -/
theorem catchall_depth_capture :
    (match staticGlobTree with
     | .ok (t, _) => some (t.Match "/static/a/b/c")
     | .error _ => none) = some (some 5, [(str "*0", str "a/b/c")]) := rfl

/-- C8: evaluating the code at the failing input: after registering
/user/?news, Match("/user") succeeds with the registered handle (the
optional mechanism added the equivalent leaf one level up), but
Match("/user/news") reports not-found, because the optional leaf stores
its raw pattern "?news" with the question mark and static matching
compares that raw pattern against the segment "news".  The claim that
both URLs match is the evident intent of the optional mechanism; the
stored question mark is the slip. -/
theorem optional_static_leaf_behavior :
    (match optionalNewsTree with
     | .ok (t, _) => some ((t.Match "/user").1, (t.Match "/user/news").1)
     | .error _ => none) = some (some 9, none) := rfl

/-- C9: a malformed regex inside a :name(...) token surfaces during route
registration: checkPattern fails to compile it and Tree.Add propagates
the failure (modelling the regexp.MustCompile panic at the registration
call site), while Tree.Match is a total function over trees whose leaves
already hold compiled regexes and performs no compilation. -/
theorem malformed_regexp_registration_error :
    checkPattern (str ":id([0-9+)") = .error "regexp compile error at route registration" ∧
    Tree.Add NewTree (str "/user/:id([0-9+)") [] 3 =
      .error "regexp compile error at route registration" := ⟨rfl, rfl⟩

/-- A HEAD-method writer never changes its method, size or forwarded
bytes under any sequence of Write/WriteHeader calls. -/
theorem rw_head_invariant (ops : List WOp) :
    ∀ rw : RW, rw.method = "HEAD" → rw.size = 0 → rw.out = "" →
      (rw.applyOps ops).method = "HEAD" ∧ (rw.applyOps ops).size = 0 ∧
      (rw.applyOps ops).out = "" := by
  induction ops with
  | nil => intro rw hm hs ho; exact ⟨hm, hs, ho⟩
  | cons op rest ih =>
    intro rw hm hs ho
    have hstep : (rw.applyOp op).method = "HEAD" ∧ (rw.applyOp op).size = 0 ∧
        (rw.applyOp op).out = "" := by
      cases op with
      | write b =>
        by_cases hw : rw.Written
        · simp [RW.applyOp, RW.Write, hw, hm, hs, ho]
        · simp [RW.applyOp, RW.Write, RW.WriteHeader, hw, hm, hs, ho]
      | writeHeader s => simp [RW.applyOp, RW.WriteHeader, hm, hs, ho]
    have : RW.applyOps rw (op :: rest) = RW.applyOps (rw.applyOp op) rest := rfl
    rw [this]
    exact ih (rw.applyOp op) hstep.1 hstep.2.1 hstep.2.2

/-- C10: for a responseWriter constructed for the HEAD method, after any
sequence of Write/WriteHeader calls the size is 0 and no byte has been
forwarded to the underlying writer; a further Write returns size 0,
forwards nothing, leaves size 0, and records the status so that Written()
becomes true, defaulting to 200 when no status was set; and the status
recorded by Write is the same as for any other method, so only the
body-forwarding behaviour differs. -/
theorem head_response_writer_frame (ops : List WOp) (b : String) :
    ((NewResponseWriter "HEAD").applyOps ops).size = 0 ∧
    ((NewResponseWriter "HEAD").applyOps ops).out = "" ∧
    (((NewResponseWriter "HEAD").applyOps ops).Write b).1 = 0 ∧
    ((((NewResponseWriter "HEAD").applyOps ops).Write b).2).size = 0 ∧
    ((((NewResponseWriter "HEAD").applyOps ops).Write b).2).out = "" ∧
    ((((NewResponseWriter "HEAD").applyOps ops).Write b).2).Written = true ∧
    (((NewResponseWriter "HEAD").applyOps ops).status = 0 →
      ((((NewResponseWriter "HEAD").applyOps ops).Write b).2).status = 200) ∧
    ∀ rw : RW, ((rw.Write b).2).status =
      (({ rw with method := "HEAD" } : RW).Write b).2.status := by
  obtain ⟨hm, hs, ho⟩ :=
    rw_head_invariant ops (NewResponseWriter "HEAD") rfl rfl rfl
  refine ⟨hs, ho, ?_, ?_, ?_, ?_, ?_, ?_⟩
  · by_cases h0 : ((NewResponseWriter "HEAD").applyOps ops).status = 0 <;>
      simp [RW.Write, RW.WriteHeader, RW.Written, h0, hm]
  · by_cases h0 : ((NewResponseWriter "HEAD").applyOps ops).status = 0 <;>
      simp [RW.Write, RW.WriteHeader, RW.Written, h0, hm, hs]
  · by_cases h0 : ((NewResponseWriter "HEAD").applyOps ops).status = 0 <;>
      simp [RW.Write, RW.WriteHeader, RW.Written, h0, hm, ho]
  · by_cases h0 : ((NewResponseWriter "HEAD").applyOps ops).status = 0 <;>
      simp [RW.Write, RW.WriteHeader, RW.Written, h0, hm]
  · intro h0
    simp [RW.Write, RW.WriteHeader, RW.Written, h0, hm]
  · intro rw
    by_cases h0 : rw.status = 0 <;> by_cases hme : rw.method = "HEAD" <;>
      simp [RW.Write, RW.WriteHeader, RW.Written, h0, hme]

/-- Witness for C10: the theorem applied to the empty call sequence and
one body write, discharging the implicit-status hypothesis there: the
first body write on a fresh HEAD writer records status 200. -/
theorem head_response_writer_frame_witness :
    ((((NewResponseWriter "HEAD").applyOps []).Write "x").2).status = 200 := by
  have h := head_response_writer_frame [] "x"
  exact h.2.2.2.2.2.2.1 rfl

/-- Executing a handler body that never calls Next() only folds its write
actions into the response writer and the buffer, leaving the cursor, the
chain and the invocation log untouched. -/
theorem execActs_noNext (h : List HAction) :
    ∀ (fuel : Nat) (c : Context), h.all (fun a => !(isNext a)) = true →
      h.length ≤ fuel →
      execActs fuel h c =
        some { c with resp := applyToResp h c.resp, buf := applyToBuf h c.buf } := by
  induction h with
  | nil => intro fuel c _ _; cases fuel <;> rfl
  | cons a rest ih =>
    intro fuel c hnn hlen
    have hna : isNext a = false := by
      have := List.all_eq_true.mp hnn a (List.mem_cons_self a rest)
      simpa using this
    have hrest : rest.all (fun x => !(isNext x)) = true := by
      refine List.all_eq_true.mpr ?_
      intro x hx
      exact List.all_eq_true.mp hnn x (List.mem_cons_of_mem a hx)
    cases fuel with
    | zero => simp at hlen
    | succ f =>
      have hlen' : rest.length ≤ f := by simpa using hlen
      cases a with
      | writeBuf s =>
        simpa [execActs, applyToResp, applyToBuf] using
          ih f { c with buf := c.buf ++ s } hrest hlen'
      | writeResp s =>
        simpa [execActs, applyToResp, applyToBuf] using
          ih f { c with resp := (c.resp.Write s).2 } hrest hlen'
      | writeHeader s =>
        simpa [execActs, applyToResp, applyToBuf] using
          ih f { c with resp := c.resp.WriteHeader s } hrest hlen'
      | next => simp [isNext] at hna

/-- Once the status is nonzero, a header-free handler body never changes
it: body writes leave an already-written status alone. -/
theorem applyToResp_status_preserved (h : List HAction) :
    ∀ rw : RW, h.all (fun a => !(isWriteHeader a)) = true → rw.status ≠ 0 →
      (applyToResp h rw).status = rw.status := by
  induction h with
  | nil => intro rw _ _; rfl
  | cons a rest ih =>
    intro rw hnh h0
    have hrest : rest.all (fun x => !(isWriteHeader x)) = true := by
      refine List.all_eq_true.mpr ?_
      intro x hx
      exact List.all_eq_true.mp hnh x (List.mem_cons_of_mem a hx)
    cases a with
    | writeBuf s => exact ih rw hrest h0
    | writeResp s =>
      have hw : (rw.Write s).2.status = rw.status := by
        have hwr : rw.Written = true := by simp [RW.Written, h0]
        by_cases hme : rw.method = "HEAD" <;> simp [RW.Write, hwr, hme]
      have := ih ((rw.Write s).2) hrest (by rw [hw]; exact h0)
      simpa [applyToResp, hw] using this
    | writeHeader s =>
      have := List.all_eq_true.mp hnh (HAction.writeHeader s) (List.mem_cons_self _ rest)
      simp [isWriteHeader] at this
    | next => exact ih rw hrest h0

/-- A header-free handler body containing a body write, run from an
unwritten response, leaves the recorded status at the implicit 200. -/
theorem applyToResp_status_200 (h : List HAction) :
    ∀ rw : RW, h.all (fun a => !(isWriteHeader a)) = true →
      h.any isWriteResp = true → rw.status = 0 →
      (applyToResp h rw).status = 200 := by
  induction h with
  | nil => intro rw _ hany _; simp at hany
  | cons a rest ih =>
    intro rw hnh hany h0
    have hrest : rest.all (fun x => !(isWriteHeader x)) = true := by
      refine List.all_eq_true.mpr ?_
      intro x hx
      exact List.all_eq_true.mp hnh x (List.mem_cons_of_mem a hx)
    cases a with
    | writeBuf s =>
      have : rest.any isWriteResp = true := by simpa [isWriteResp] using hany
      exact ih rw hrest this h0
    | writeResp s =>
      have hw : (rw.Write s).2.status = 200 := by
        have hnw : rw.Written = false := by simp [RW.Written, h0]
        by_cases hme : rw.method = "HEAD" <;>
          simp [RW.Write, RW.WriteHeader, hnw, hme]
      have := applyToResp_status_preserved rest ((rw.Write s).2) hrest
        (by rw [hw]; simp)
      simpa [applyToResp, hw] using this
    | writeHeader s =>
      have := List.all_eq_true.mp hnh (HAction.writeHeader s) (List.mem_cons_self _ rest)
      simp [isWriteHeader] at this
    | next =>
      have : rest.any isWriteResp = true := by simpa [isWriteResp] using hany
      exact ih rw hrest this h0

/-- A handler exists at the cursor only while the cursor is within the
chain or at the terminal action. -/
theorem handler_index_le (c : Context) (h : List HAction)
    (hh : c.handler = some h) : c.index ≤ c.handlers.length := by
  by_cases h1 : c.index < c.handlers.length
  · exact Nat.le_of_lt h1
  · by_cases h2 : c.index = c.handlers.length
    · exact Nat.le_of_eq h2
    · simp [Context.handler, h1, h2] at hh

/-- C3: if the handler at the cursor makes the response written (a body
byte or a status write) and does not call Next(), Context.run invokes
only that handler — no later handler in the chain and not the terminal
action — stopping with the invocation log extended by just that index;
and when only a body was written with no explicit status from an
unwritten response, the recorded status is the implicit 200. -/
theorem run_early_write_short_circuit (fuel : Nat) (c : Context) (h : List HAction)
    (hh : c.handler = some h)
    (hnn : h.all (fun a => !(isNext a)) = true)
    (hwr : (applyToResp h c.resp).Written = true)
    (hf : h.length < fuel) :
    Context.run fuel c =
      some { handlers := c.handlers, action := c.action, index := c.index + 1,
             resp := applyToResp h c.resp, buf := applyToBuf h c.buf,
             invoked := c.invoked ++ [c.index] } ∧
    (h.all (fun a => !(isWriteHeader a)) = true → h.any isWriteResp = true →
      c.resp.status = 0 → (applyToResp h c.resp).status = 200) := by
  refine ⟨?_, fun hnh hwb h0 => applyToResp_status_200 h c.resp hnh hwb h0⟩
  cases fuel with
  | zero => simp at hf
  | succ f =>
    have hle : c.index ≤ c.handlers.length := handler_index_le c h hh
    have hexec :=
      execActs_noNext h f { c with invoked := c.invoked ++ [c.index] } hnn
        (Nat.le_of_lt_succ hf)
    have hwr' : (applyToResp h c.resp).status ≠ 0 := by
      simpa [RW.Written] using hwr
    simp only [Context.run, hle, if_pos, hh, hexec]
    simp [Context.Written, RW.Written, hwr']

/-- Witness for C3: the theorem applied to the concrete context whose
first middleware writes "Hello world" without calling Next(): the run
stops after stage 0 with status 200. -/
theorem run_early_write_short_circuit_witness :
    Context.run 2 earlyWriteCtx =
      some { handlers := earlyWriteCtx.handlers, action := earlyWriteCtx.action,
             index := earlyWriteCtx.index + 1,
             resp := applyToResp [.writeResp "Hello world"] earlyWriteCtx.resp,
             buf := applyToBuf [.writeResp "Hello world"] earlyWriteCtx.buf,
             invoked := earlyWriteCtx.invoked ++ [earlyWriteCtx.index] } ∧
    (applyToResp [.writeResp "Hello world"] earlyWriteCtx.resp).status = 200 := by
  have h := run_early_write_short_circuit 2 earlyWriteCtx
    [.writeResp "Hello world"] rfl rfl rfl (by decide)
  exact ⟨h.1, h.2 rfl rfl rfl⟩

/-- In a rank-sorted leaf list the head has the least rank. -/
theorem sorted_head_le (rest : List Leaf) :
    ∀ a : Leaf, sortedByRank (a :: rest) = true →
      ∀ y ∈ rest, a.typ.rank ≤ y.typ.rank := by
  induction rest with
  | nil => intro a _ y hy; simp at hy
  | cons b rest' ih =>
    intro a hs y hy
    have hab : a.typ.rank ≤ b.typ.rank := by
      simp [sortedByRank] at hs
      exact hs.1
    have hs' : sortedByRank (b :: rest') = true := by
      simp [sortedByRank] at hs ⊢
      exact hs.2
    rcases List.mem_cons.mp hy with h | h
    · rw [h]; exact hab
    · exact Nat.le_trans hab (ih b hs' y h)

/-- Sortedness restricts to the tail. -/
theorem sorted_tail (a : Leaf) (rest : List Leaf)
    (hs : sortedByRank (a :: rest) = true) : sortedByRank rest = true := by
  cases rest with
  | nil => rfl
  | cons b rest' =>
    simp [sortedByRank] at hs ⊢
    exact hs.2

/-- A leaf that accepts the segment is returned as soon as matchLeaf
reaches it. -/
theorem matchLeaf_accepts_head (a : Leaf) (rest : List Leaf) (gl : Nat)
    (url : Str) (params : Params) (hacc : leafAccepts a url = true) :
    ∃ ps, matchLeaf (a :: rest) gl url params = some (a.handle, ps) := by
  cases hty : a.typ with
  | static =>
    have hp : a.pattern = url := by
      simp [leafAccepts, hty] at hacc
      exact hacc
    exact ⟨params, by simp [matchLeaf, hty, hp]⟩
  | regexp =>
    simp only [leafAccepts, hty] at hacc
    cases hr : a.reg with
    | none => simp only [hr] at hacc; simp at hacc
    | some r =>
      simp only [hr] at hacc
      cases hf : findStringSubmatch r url with
      | none => simp only [hf] at hacc; simp at hacc
      | some res =>
        simp only [hf] at hacc
        have hlen : res.length = a.wildcards.length + 1 := by simpa using hacc
        exact ⟨paramsSetAll params (a.wildcards.zip res.tail),
          by simp [matchLeaf, hty, hr, hf, hlen]⟩
  | pathExt =>
    cases hsplit : lastDotSplit url with
    | none =>
      exact ⟨paramsSet params (str ":path") url, by simp [matchLeaf, hty, hsplit]⟩
    | some ab =>
      obtain ⟨x, y⟩ := ab
      exact ⟨paramsSet (paramsSet params (str ":path") x) (str ":ext") y,
        by simp [matchLeaf, hty, hsplit]⟩
  | holder =>
    exact ⟨paramsSet params (a.wildcards.headD []) url, by simp [matchLeaf, hty]⟩
  | matchAll =>
    exact ⟨paramsSet params (globKey gl) url, by simp [matchLeaf, hty]⟩

/-- A leaf that rejects the segment is skipped by matchLeaf. -/
theorem matchLeaf_skip (a : Leaf) (rest : List Leaf) (gl : Nat)
    (url : Str) (params : Params) (hacc : leafAccepts a url = false) :
    matchLeaf (a :: rest) gl url params = matchLeaf rest gl url params := by
  cases hty : a.typ with
  | static =>
    have hp : a.pattern ≠ url := by
      simp [leafAccepts, hty] at hacc
      exact hacc
    simp [matchLeaf, hty, hp]
  | regexp =>
    simp only [leafAccepts, hty] at hacc
    cases hr : a.reg with
    | none => simp [matchLeaf, hty, hr]
    | some r =>
      simp only [hr] at hacc
      cases hf : findStringSubmatch r url with
      | none => simp [matchLeaf, hty, hr, hf]
      | some res =>
        simp only [hf] at hacc
        have hlen : res.length ≠ a.wildcards.length + 1 := by simpa using hacc
        simp [matchLeaf, hty, hr, hf, hlen]
  | pathExt => simp [leafAccepts, hty] at hacc
  | holder => simp [leafAccepts, hty] at hacc
  | matchAll => simp [leafAccepts, hty] at hacc

/-- matchLeaf on a rank-sorted leaf list: if some leaf accepts the
segment, the returned handle belongs to a leaf in the list whose rank is
at most that of any accepting leaf. -/
theorem matchLeaf_first_rank (leaves : List Leaf) :
    ∀ (gl : Nat) (url : Str) (params : Params) (l : Leaf),
      sortedByRank leaves = true → l ∈ leaves → leafAccepts l url = true →
      ∃ l' ps, l' ∈ leaves ∧ l'.typ.rank ≤ l.typ.rank ∧
        matchLeaf leaves gl url params = some (l'.handle, ps) := by
  induction leaves with
  | nil => intro gl url params l _ hl _; simp at hl
  | cons a rest ih =>
    intro gl url params l hs hl hacc
    by_cases ha : leafAccepts a url = true
    · obtain ⟨ps, hps⟩ := matchLeaf_accepts_head a rest gl url params ha
      refine ⟨a, ps, List.mem_cons_self a rest, ?_, hps⟩
      rcases List.mem_cons.mp hl with h | h
      · rw [h]
      · exact sorted_head_le rest a hs l h
    · have ha' : leafAccepts a url = false := by
        cases hb : leafAccepts a url
        · rfl
        · exact absurd hb ha
      have hl' : l ∈ rest := by
        rcases List.mem_cons.mp hl with h | h
        · rw [h] at hacc; exact absurd hacc ha
        · exact h
      obtain ⟨l', ps, hmem, hrank, heq⟩ :=
        ih gl url params l (sorted_tail a rest hs) hl' hacc
      exact ⟨l', ps, List.mem_cons_of_mem a hmem, hrank,
        by rw [matchLeaf_skip a rest gl url params ha', heq]⟩

/-- C2: on a node whose leaves are kept in kind-rank order (as addLeaf
maintains), if a static or regexp leaf accepts the final segment of the
URL, then Tree.Match returns the handle of a non-catch-all leaf of that
node — never the handle of a CatchAll leaf registered there, since the
accepting specific leaf bounds the rank of the returned leaf below the
CatchAll rank. -/
theorem match_specific_before_catchall (t : Tree) (url : String) (l ca : Leaf)
    (hs : sortedByRank t.leaves = true)
    (hns : splitSlash (trimTrailSlash (trimLeadSlash (str url))) = none)
    (hl : l ∈ t.leaves)
    (htyp : l.typ = .static ∨ l.typ = .regexp)
    (hacc : leafAccepts l (trimTrailSlash (trimLeadSlash (str url))) = true)
    (_hca : ca ∈ t.leaves) (_hcat : ca.typ = .matchAll)
    (hdist : ∀ x ∈ t.leaves, x.typ ≠ .matchAll → x.handle ≠ ca.handle) :
    ∃ l' ps, l' ∈ t.leaves ∧ l'.typ ≠ .matchAll ∧
      t.Match url = (some l'.handle, ps) ∧ l'.handle ≠ ca.handle := by
  obtain ⟨l', ps, hmem, hrank, heq⟩ :=
    matchLeaf_first_rank t.leaves 0 (trimTrailSlash (trimLeadSlash (str url))) [] l
      hs hl hacc
  have hnotall : l'.typ ≠ .matchAll := by
    intro hma
    rw [hma] at hrank
    rcases htyp with h | h <;> rw [h] at hrank <;> simp [PatternType.rank] at hrank
  refine ⟨l', ps, hmem, hnotall, ?_, hdist l' hmem hnotall⟩
  have hfuel : matchFuel (trimTrailSlash (trimLeadSlash (str url))) =
      (2 * (trimTrailSlash (trimLeadSlash (str url))).length + 3) + 1 := rfl
  show Tree.matchNextSegment (matchFuel (trimTrailSlash (trimLeadSlash (str url)))) t 0
      (trimTrailSlash (trimLeadSlash (str url))) [] = (some l'.handle, ps)
  rw [hfuel]
  simp only [Tree.matchNextSegment]
  rw [hns, heq]

/-- Witness for C2: the theorem applied to a node holding a static leaf
for "user" (handle 1) and a catch-all leaf (handle 2): matching "user"
returns the handle of a non-catch-all leaf, not the catch-all handle. -/
theorem match_specific_before_catchall_witness :
    ∃ l' ps, l' ∈ specificAndCatchTree.leaves ∧ l'.typ ≠ PatternType.matchAll ∧
      specificAndCatchTree.Match "user" = (some l'.handle, ps) ∧
      l'.handle ≠ catchAllLeaf.handle := by
  refine match_specific_before_catchall specificAndCatchTree "user"
    staticUserLeaf catchAllLeaf rfl rfl ?_ (Or.inl rfl) rfl ?_ rfl ?_
  · simp [specificAndCatchTree, Tree.leaves]
  · simp [specificAndCatchTree, Tree.leaves]
  · intro x hx hne
    simp [specificAndCatchTree, Tree.leaves] at hx
    rcases hx with h | h
    · rw [h]; decide
    · rw [h] at hne; exact absurd rfl hne

/-! ### Helper lemmas for registration idempotence -/

theorem withLeaves_leaves (t : Tree) (ls : List Leaf) : (t.withLeaves ls).leaves = ls := by
  cases t; rfl

theorem withLeaves_pattern (t : Tree) (ls : List Leaf) :
    (t.withLeaves ls).pattern = t.pattern := by
  cases t; rfl

theorem withLeaves_typ (t : Tree) (ls : List Leaf) : (t.withLeaves ls).typ = t.typ := by
  cases t; rfl

theorem withLeaves_subtrees (t : Tree) (ls : List Leaf) :
    (t.withLeaves ls).subtrees = t.subtrees := by
  cases t; rfl

theorem withSubtrees_subtrees (t : Tree) (s : List Tree) :
    (t.withSubtrees s).subtrees = s := by
  cases t; rfl

theorem withSubtrees_pattern (t : Tree) (s : List Tree) :
    (t.withSubtrees s).pattern = t.pattern := by
  cases t; rfl

theorem withSubtrees_typ (t : Tree) (s : List Tree) : (t.withSubtrees s).typ = t.typ := by
  cases t; rfl

theorem withSubtrees_leaves (t : Tree) (s : List Tree) :
    (t.withSubtrees s).leaves = t.leaves := by
  cases t; rfl

theorem withSubtrees_self (t : Tree) (s : List Tree) (h : t.subtrees = s) :
    t.withSubtrees s = t := by
  cases t
  cases h
  rfl

theorem NewLeaf_pattern (p n : Str) (h : Handle) (leaf : Leaf)
    (hl : NewLeaf p n h = .ok leaf) : leaf.pattern = p := by
  unfold NewLeaf at hl
  cases hcp : checkPattern p with
  | error e => rw [hcp] at hl; exact absurd hl (by simp)
  | ok tw =>
    obtain ⟨ty, w, r⟩ := tw
    rw [hcp] at hl
    simp at hl
    rw [← hl]

theorem NewSubtree_fields (seg : Str) (sub : Tree)
    (hs : NewSubtree seg = .ok sub) :
    sub.pattern = seg ∧ sub.subtrees = [] ∧ sub.leaves = [] := by
  unfold NewSubtree at hs
  cases hcp : checkPattern seg with
  | error e => rw [hcp] at hs; exact absurd hs (by simp)
  | ok tw =>
    obtain ⟨ty, w, r⟩ := tw
    rw [hcp] at hs
    simp at hs
    rw [← hs]
    exact ⟨rfl, rfl, rfl⟩

theorem leafDup_iff (ls : List Leaf) (p : Str) :
    leafDup ls p = true ↔ ∃ l ∈ ls, l.pattern = p := by
  induction ls with
  | nil => simp [leafDup]
  | cons a rest ih =>
    by_cases hp : a.pattern = p
    · constructor
      · intro _
        exact ⟨a, List.mem_cons_self a rest, hp⟩
      · intro _
        simp [leafDup, hp]
    · simp only [leafDup, if_neg hp, ih]
      constructor
      · rintro ⟨l, hl, hlp⟩
        exact ⟨l, List.mem_cons_of_mem a hl, hlp⟩
      · rintro ⟨l, hl, hlp⟩
        rcases List.mem_cons.mp hl with h | h
        · rw [h] at hlp; exact absurd hlp hp
        · exact ⟨l, h, hlp⟩

theorem mem_insertLeafSorted_self (ls : List Leaf) (leaf : Leaf) :
    leaf ∈ insertLeafSorted ls leaf := by
  induction ls with
  | nil => simp [insertLeafSorted]
  | cons a rest ih =>
    by_cases hr : leaf.typ.rank < a.typ.rank
    · simp [insertLeafSorted, hr]
    · simp only [insertLeafSorted, if_neg hr]
      exact List.mem_cons_of_mem a ih

theorem mem_insertLeafSorted_of_mem (ls : List Leaf) (leaf x : Leaf)
    (hx : x ∈ ls) : x ∈ insertLeafSorted ls leaf := by
  induction ls with
  | nil => simp at hx
  | cons a rest ih =>
    by_cases hr : leaf.typ.rank < a.typ.rank
    · simp only [insertLeafSorted, if_pos hr]
      exact List.mem_cons_of_mem leaf hx
    · simp only [insertLeafSorted, if_neg hr]
      rcases List.mem_cons.mp hx with h | h
      · rw [h]; exact List.mem_cons_self a _
      · exact List.mem_cons_of_mem a (ih h)

theorem findChild_eq_some (cs : List Tree) (seg : Str) :
    ∀ pre c post, findChild cs seg = some (pre, c, post) →
      cs = pre ++ c :: post ∧ c.pattern = seg ∧ ∀ x ∈ pre, x.pattern ≠ seg := by
  induction cs with
  | nil => intro pre c post h; simp [findChild] at h
  | cons a rest ih =>
    intro pre c post h
    by_cases hp : a.pattern = seg
    · simp only [findChild, if_pos hp, Option.some.injEq, Prod.mk.injEq] at h
      obtain ⟨rfl, rfl, rfl⟩ := h
      refine ⟨by simp, hp, by simp⟩
    · simp only [findChild, if_neg hp] at h
      cases hrec : findChild rest seg with
      | none => rw [hrec] at h; simp at h
      | some v =>
        obtain ⟨pre', c', post'⟩ := v
        rw [hrec] at h
        simp only [Option.some.injEq, Prod.mk.injEq] at h
        obtain ⟨rfl, rfl, rfl⟩ := h
        obtain ⟨hcs, hcp, hpre⟩ := ih pre' c' post' hrec
        refine ⟨?_, hcp, ?_⟩
        · rw [List.cons_append, hcs]
        · intro x hx
          rcases List.mem_cons.mp hx with hxa | hxp
          · rw [hxa]; exact hp
          · exact hpre x hxp

theorem findChild_eq_none (cs : List Tree) (seg : Str)
    (h : findChild cs seg = none) : ∀ x ∈ cs, x.pattern ≠ seg := by
  induction cs with
  | nil => intro x hx; simp at hx
  | cons a rest ih =>
    intro x hx
    by_cases hp : a.pattern = seg
    · simp [findChild, hp] at h
    · simp only [findChild, if_neg hp] at h
      cases hrec : findChild rest seg with
      | none =>
        rcases List.mem_cons.mp hx with hxa | hxp
        · rw [hxa]; exact hp
        · exact ih hrec x hxp
      | some v =>
        obtain ⟨pre', c', post'⟩ := v
        rw [hrec] at h
        simp at h

theorem findChild_append (pre : List Tree) (c : Tree) (post : List Tree) (seg : Str) :
    (∀ x ∈ pre, x.pattern ≠ seg) → c.pattern = seg →
      findChild (pre ++ c :: post) seg = some (pre, c, post) := by
  induction pre with
  | nil => intro _ hc; simp [findChild, hc]
  | cons a rest ih =>
    intro hpre hc
    have ha : a.pattern ≠ seg := hpre a (List.mem_cons_self a rest)
    have hrest : ∀ x ∈ rest, x.pattern ≠ seg := fun x hx =>
      hpre x (List.mem_cons_of_mem a hx)
    simp only [List.cons_append, findChild, if_neg ha, List.append_eq]
    rw [ih hrest hc]

theorem insertSubtreeSorted_decomp (l : List Tree) (x : Tree) :
    ∃ a b, insertSubtreeSorted l x = a ++ x :: b ∧ l = a ++ b := by
  induction l with
  | nil => exact ⟨[], [], rfl, rfl⟩
  | cons t rest ih =>
    by_cases hr : x.typ.rank < t.typ.rank
    · exact ⟨[], t :: rest, by simp [insertSubtreeSorted, hr], rfl⟩
    · obtain ⟨a, b, h1, h2⟩ := ih
      exact ⟨t :: a, b, by simp [insertSubtreeSorted, hr, h1], by rw [h2]; rfl⟩

/-- Go addLeaf is idempotent: a successful registration leaves a leaf with
the raw pattern in place, so repeating it is a no-op that signals a
duplicate; the duplicate flag of the first run reports exactly whether
the pattern was already present, and addLeaf never touches the node's own
pattern, kind or children. -/
theorem addLeaf_ok (t : Tree) (isRoot : Bool) (p n : Str) (h : Handle)
    (t' : Tree) (dup : Bool) (bub : Option Str)
    (hok : t.addLeaf isRoot p n h = .ok (t', dup, bub)) :
    t'.addLeaf isRoot p n h = .ok (t', true, none) ∧
    dup = leafDup t.leaves p ∧
    t'.pattern = t.pattern ∧ t'.typ = t.typ ∧ t'.subtrees = t.subtrees := by
  by_cases hdup : leafDup t.leaves p = true
  · rw [Tree.addLeaf, if_pos hdup] at hok
    simp only [Except.ok.injEq, Prod.mk.injEq] at hok
    obtain ⟨rfl, rfl, rfl⟩ := hok
    exact ⟨by rw [Tree.addLeaf, if_pos hdup], hdup.symm, rfl, rfl, rfl⟩
  · have hdupf : leafDup t.leaves p = false := by
      cases hb : leafDup t.leaves p
      · rfl
      · exact absurd hb hdup
    rw [Tree.addLeaf, if_neg hdup] at hok
    cases hnl : NewLeaf p n h with
    | error e => rw [hnl] at hok; exact absurd hok (by simp)
    | ok leaf =>
      simp only [hnl] at hok
      have hlp : leaf.pattern = p := NewLeaf_pattern p n h leaf hnl
      by_cases hopt : leaf.optional = true
      · by_cases hroot : isRoot = true
        · rw [if_pos hopt, hroot, if_pos rfl] at hok
          simp only [Except.ok.injEq, Prod.mk.injEq] at hok
          obtain ⟨ht', rfl, rfl⟩ := hok
          set t1 :=
            (if leafDup t.leaves [] = true then t
             else
              match NewLeaf [] n h with
              | .ok emptyLeaf => t.withLeaves (insertLeafSorted t.leaves emptyLeaf)
              | .error _ => t) with ht1
          have hfields : t1.pattern = t.pattern ∧ t1.typ = t.typ ∧
              t1.subtrees = t.subtrees := by
            rw [ht1]
            by_cases he : leafDup t.leaves [] = true
            · rw [if_pos he]; exact ⟨rfl, rfl, rfl⟩
            · rw [if_neg he]
              cases NewLeaf [] n h with
              | error e => exact ⟨rfl, rfl, rfl⟩
              | ok el =>
                exact ⟨withLeaves_pattern t _, withLeaves_typ t _,
                  withLeaves_subtrees t _⟩
          have hmem : leaf ∈ t'.leaves := by
            rw [← ht', withLeaves_leaves]
            exact mem_insertLeafSorted_self t1.leaves leaf
          have hdup' : leafDup t'.leaves p = true :=
            (leafDup_iff t'.leaves p).mpr ⟨leaf, hmem, hlp⟩
          refine ⟨by rw [Tree.addLeaf, if_pos hdup'], hdupf.symm, ?_, ?_, ?_⟩
          · rw [← ht', withLeaves_pattern, hfields.1]
          · rw [← ht', withLeaves_typ, hfields.2.1]
          · rw [← ht', withLeaves_subtrees, hfields.2.2]
        · have hroot' : isRoot = false := by
            cases hb : isRoot
            · rfl
            · exact absurd hb hroot
          rw [if_pos hopt, hroot'] at hok
          simp only [Bool.false_eq_true, if_false, Except.ok.injEq,
            Prod.mk.injEq] at hok
          obtain ⟨ht', rfl, rfl⟩ := hok
          have hmem : leaf ∈ t'.leaves := by
            rw [← ht', withLeaves_leaves]
            exact mem_insertLeafSorted_self t.leaves leaf
          have hdup' : leafDup t'.leaves p = true :=
            (leafDup_iff t'.leaves p).mpr ⟨leaf, hmem, hlp⟩
          refine ⟨by rw [Tree.addLeaf, if_pos hdup'], hdupf.symm, ?_, ?_, ?_⟩
          · rw [← ht', withLeaves_pattern]
          · rw [← ht', withLeaves_typ]
          · rw [← ht', withLeaves_subtrees]
      · have hopt' : leaf.optional = false := by
          cases hb : leaf.optional
          · rfl
          · exact absurd hb hopt
        rw [hopt'] at hok
        simp only [Bool.false_eq_true, if_false, Except.ok.injEq,
          Prod.mk.injEq] at hok
        obtain ⟨ht', rfl, rfl⟩ := hok
        have hmem : leaf ∈ t'.leaves := by
          rw [← ht', withLeaves_leaves]
          exact mem_insertLeafSorted_self t.leaves leaf
        have hdup' : leafDup t'.leaves p = true :=
          (leafDup_iff t'.leaves p).mpr ⟨leaf, hmem, hlp⟩
        refine ⟨by rw [Tree.addLeaf, if_pos hdup'], hdupf.symm, ?_, ?_, ?_⟩
        · rw [← ht', withLeaves_pattern]
        · rw [← ht', withLeaves_typ]
        · rw [← ht', withLeaves_subtrees]

/-- Registering any pattern into a node with no leaves and no children
never reports a duplicate: the fresh chain addSubtree builds bottoms out
at an empty leaf list. -/
theorem addNextSegment_fresh (fuel : Nat) :
    ∀ (t : Tree) (isRoot : Bool) (p n : Str) (h : Handle) (t' : Tree)
      (dup : Bool) (bub : Option Str),
      t.leaves = [] → t.subtrees = [] →
      Tree.addNextSegment fuel t isRoot p n h = .ok (t', dup, bub) →
      dup = false := by
  induction fuel using Nat.strong_induction_on with
  | _ fuel ih =>
    intro t isRoot p n h t' dup bub hlv hst hok
    cases fuel with
    | zero => simp [Tree.addNextSegment] at hok
    | succ f =>
      simp only [Tree.addNextSegment] at hok
      cases hsp : splitSlash (trimLeadSlash p) with
      | none =>
        rw [hsp] at hok
        have hal := addLeaf_ok t isRoot (trimLeadSlash p) n h t' dup bub hok
        rw [hal.2.1, hlv]
        rfl
      | some sr =>
        obtain ⟨seg, rest⟩ := sr
        rw [hsp] at hok
        cases f with
        | zero => simp [Tree.addSubtree] at hok
        | succ f2 =>
          simp only [Tree.addSubtree] at hok
          rw [hst] at hok
          simp only [findChild] at hok
          cases hns : NewSubtree seg with
          | error e => rw [hns] at hok; simp at hok
          | ok sub =>
            simp only [hns] at hok
            obtain ⟨hsp', hssub, hslv⟩ := NewSubtree_fields seg sub hns
            cases hrec : Tree.addNextSegment f2 sub false rest n h with
            | error e => rw [hrec] at hok; simp at hok
            | ok v =>
              obtain ⟨sub', dupc, bubc⟩ := v
              simp only [hrec] at hok
              have hdupc : dupc = false :=
                ih f2 (by omega) sub false rest n h sub' dupc bubc hslv hssub hrec
              cases bubc with
              | none =>
                simp only [Except.ok.injEq, Prod.mk.injEq] at hok
                obtain ⟨-, rfl, -⟩ := hok
                exact hdupc
              | some q =>
                cases hal : (t.withSubtrees
                    (insertSubtreeSorted [] sub')).addLeaf isRoot q n h with
                | error e => simp only [hal] at hok; exact absurd hok (by simp)
                | ok v3 =>
                  obtain ⟨t'', mid, bub'⟩ := v3
                  simp only [hal] at hok
                  simp only [Except.ok.injEq, Prod.mk.injEq] at hok
                  obtain ⟨-, rfl, -⟩ := hok
                  exact hdupc

/-- Registration idempotence for the mutual walk: a successful
addNextSegment/addSubtree run, repeated with the same arguments, is a
no-op that reports a duplicate and bubbles nothing; the duplicate flag of
the first run equals the read-only presence test at the same fuel; and
neither walk changes the pattern or kind of the node it runs on. -/
theorem addBoth_idem (fuel : Nat) :
    (∀ (t : Tree) (isRoot : Bool) (p n : Str) (h : Handle) (t' : Tree)
        (dup : Bool) (bub : Option Str),
      Tree.addNextSegment fuel t isRoot p n h = .ok (t', dup, bub) →
      Tree.addNextSegment fuel t' isRoot p n h = .ok (t', true, none) ∧
      dup = Tree.hasPat fuel t p ∧ t'.pattern = t.pattern ∧ t'.typ = t.typ) ∧
    (∀ (t : Tree) (isRoot : Bool) (seg rest n : Str) (h : Handle) (t' : Tree)
        (dup : Bool) (bub : Option Str),
      Tree.addSubtree fuel t isRoot seg rest n h = .ok (t', dup, bub) →
      Tree.addSubtree fuel t' isRoot seg rest n h = .ok (t', true, none) ∧
      dup = Tree.hasPatSub fuel t seg rest ∧ t'.pattern = t.pattern ∧
      t'.typ = t.typ) := by
  induction fuel with
  | zero =>
    constructor
    · intro t isRoot p n h t' dup bub hok
      simp [Tree.addNextSegment] at hok
    · intro t isRoot seg rest n h t' dup bub hok
      simp [Tree.addSubtree] at hok
  | succ f ih =>
    obtain ⟨ihP, ihQ⟩ := ih
    constructor
    · intro t isRoot p n h t' dup bub hok
      simp only [Tree.addNextSegment] at hok ⊢
      cases hsp : splitSlash (trimLeadSlash p) with
      | none =>
        rw [hsp] at hok
        obtain ⟨hsecond, hdup, hpat, htyp⟩ :=
          addLeaf_ok t isRoot (trimLeadSlash p) n h t' dup bub hok
        refine ⟨hsecond, ?_, hpat, htyp.1⟩
        simp only [Tree.hasPat]
        rw [hsp]
        exact hdup
      | some sr =>
        obtain ⟨seg, rest⟩ := sr
        rw [hsp] at hok
        obtain ⟨hsecond, hdup, hpat, htyp⟩ :=
          ihQ t isRoot seg rest n h t' dup bub hok
        refine ⟨hsecond, ?_, hpat, htyp⟩
        simp only [Tree.hasPat]
        rw [hsp]
        exact hdup
    · intro t isRoot seg rest n h t' dup bub hok
      simp only [Tree.addSubtree] at hok
      cases hfc : findChild t.subtrees seg with
      | some v =>
        obtain ⟨pre, child, post⟩ := v
        simp only [hfc] at hok
        obtain ⟨hdecomp, hcp, hpre⟩ := findChild_eq_some t.subtrees seg pre child post hfc
        cases hrec : Tree.addNextSegment f child false rest n h with
        | error e => simp [hrec] at hok
        | ok v2 =>
          obtain ⟨child', dupc, bubc⟩ := v2
          simp only [hrec] at hok
          obtain ⟨hsecond, hdupc, hcpat, hctyp⟩ :=
            ihP child false rest n h child' dupc bubc hrec
          have hdupconj : dupc = Tree.hasPatSub (f + 1) t seg rest := by
            simp only [Tree.hasPatSub]
            rw [hfc]
            exact hdupc
          cases bubc with
          | none =>
            simp only [Except.ok.injEq, Prod.mk.injEq] at hok
            obtain ⟨rfl, rfl, rfl⟩ := hok
            have hsub2 : (t.withSubtrees (pre ++ child' :: post)).subtrees =
                pre ++ child' :: post := withSubtrees_subtrees t _
            refine ⟨?_, hdupconj, withSubtrees_pattern t _, withSubtrees_typ t _⟩
            simp only [Tree.addSubtree, hsub2,
              findChild_append pre child' post seg hpre (hcpat.trans hcp), hsecond]
            rw [withSubtrees_self _ _ hsub2]
          | some q =>
            cases hal : (t.withSubtrees (pre ++ child' :: post)).addLeaf isRoot q n h with
            | error e => simp [hal] at hok
            | ok v3 =>
              obtain ⟨t'', mid, bub'⟩ := v3
              simp only [hal, Except.ok.injEq, Prod.mk.injEq] at hok
              obtain ⟨rfl, rfl, rfl⟩ := hok
              obtain ⟨halsecond, haldup, halpat, haltyp, halsub⟩ :=
                addLeaf_ok _ isRoot q n h t'' mid bub' hal
              have hsub2 : t''.subtrees = pre ++ child' :: post := by
                rw [halsub, withSubtrees_subtrees]
              refine ⟨?_, hdupconj, ?_, ?_⟩
              · simp only [Tree.addSubtree, hsub2,
                  findChild_append pre child' post seg hpre (hcpat.trans hcp), hsecond]
                rw [withSubtrees_self _ _ hsub2]
              · rw [halpat, withSubtrees_pattern]
              · rw [haltyp, withSubtrees_typ]
      | none =>
        simp only [hfc] at hok
        cases hns : NewSubtree seg with
        | error e => simp [hns] at hok
        | ok sub =>
          simp only [hns] at hok
          obtain ⟨hsp', hssub, hslv⟩ := NewSubtree_fields seg sub hns
          cases hrec : Tree.addNextSegment f sub false rest n h with
          | error e => simp [hrec] at hok
          | ok v2 =>
            obtain ⟨sub', dupc, bubc⟩ := v2
            simp only [hrec] at hok
            obtain ⟨hsecond, hdupc, hcpat, hctyp⟩ :=
              ihP sub false rest n h sub' dupc bubc hrec
            have hfresh : dupc = false :=
              addNextSegment_fresh f sub false rest n h sub' dupc bubc hslv hssub hrec
            have hdupconj : dupc = Tree.hasPatSub (f + 1) t seg rest := by
              simp only [Tree.hasPatSub]
              rw [hfc, hfresh]
            obtain ⟨aa, bb, hins, hsplit2⟩ := insertSubtreeSorted_decomp t.subtrees sub'
            have hprea : ∀ x ∈ aa, x.pattern ≠ seg := by
              intro x hx
              exact findChild_eq_none t.subtrees seg hfc x
                (by rw [hsplit2]; exact List.mem_append_left bb hx)
            have hsub'p : sub'.pattern = seg := by rw [hcpat, hsp']
            cases bubc with
            | none =>
              simp only [Except.ok.injEq, Prod.mk.injEq] at hok
              obtain ⟨rfl, rfl, rfl⟩ := hok
              have hsub2 : (t.withSubtrees (insertSubtreeSorted t.subtrees sub')).subtrees =
                  aa ++ sub' :: bb := by
                rw [withSubtrees_subtrees, hins]
              refine ⟨?_, hdupconj, withSubtrees_pattern t _, withSubtrees_typ t _⟩
              simp only [Tree.addSubtree, hsub2,
                findChild_append aa sub' bb seg hprea hsub'p, hsecond]
              rw [withSubtrees_self _ _ hsub2]
            | some q =>
              cases hal : (t.withSubtrees
                  (insertSubtreeSorted t.subtrees sub')).addLeaf isRoot q n h with
              | error e => simp [hal] at hok
              | ok v3 =>
                obtain ⟨t'', mid, bub'⟩ := v3
                simp only [hal, Except.ok.injEq, Prod.mk.injEq] at hok
                obtain ⟨rfl, rfl, rfl⟩ := hok
                obtain ⟨halsecond, haldup, halpat, haltyp, halsub⟩ :=
                  addLeaf_ok _ isRoot q n h t'' mid bub' hal
                have hsub2 : t''.subtrees = aa ++ sub' :: bb := by
                  rw [halsub, withSubtrees_subtrees, hins]
                refine ⟨?_, hdupconj, ?_, ?_⟩
                · simp only [Tree.addSubtree, hsub2,
                    findChild_append aa sub' bb seg hprea hsub'p, hsecond]
                  rw [withSubtrees_self _ _ hsub2]
                · rw [halpat, withSubtrees_pattern]
                · rw [haltyp, withSubtrees_typ]

/-- C7: a second Tree.Add of the identical pattern string is a no-op on
the tree and returns true (the duplicate signal), for any starting tree;
and the first Add returns the presence of the pattern before the call, so
on a tree where the pattern is fresh the first Add returns false. -/
theorem add_idempotent (t : Tree) (pattern name : Str) (handle : Handle)
    (t1 : Tree) (b : Bool)
    (hadd : Tree.Add t pattern name handle = .ok (t1, b)) :
    Tree.Add t1 pattern name handle = .ok (t1, true) ∧
    b = t.hasRoute pattern := by
  unfold Tree.Add at hadd ⊢
  cases hans : Tree.addNextSegment ((trimTrailSlash pattern).length + 1) t true
      (trimTrailSlash pattern) name handle with
  | error e => simp [hans] at hadd
  | ok v =>
    obtain ⟨t', dup, bub⟩ := v
    simp only [hans, Except.ok.injEq, Prod.mk.injEq] at hadd
    obtain ⟨rfl, rfl⟩ := hadd
    obtain ⟨hsecond, hdup, -, -⟩ :=
      (addBoth_idem ((trimTrailSlash pattern).length + 1)).1 t true
        (trimTrailSlash pattern) name handle t' dup bub hans
    rw [hsecond]
    exact ⟨rfl, hdup⟩

/-- Witness for C7: the theorem applied to the route /a/b added to the
empty tree: the first Add returns false (the pattern is fresh) and the
second Add leaves the tree unchanged and returns true. -/
theorem add_idempotent_witness :
    ∃ t1, Tree.Add NewTree (str "/a/b") [] 1 = .ok (t1, false) ∧
      Tree.Add t1 (str "/a/b") [] 1 = .ok (t1, true) := by
  obtain ⟨t1, b, h⟩ : ∃ t1 b, Tree.Add NewTree (str "/a/b") [] 1 = .ok (t1, b) :=
    ⟨_, _, rfl⟩
  have h2 := add_idempotent NewTree (str "/a/b") [] 1 t1 b h
  have hb : b = false := by
    rw [h2.2]
    rfl
  rw [hb] at h
  exact ⟨t1, h, h2.1⟩

/-- The sorted insertion of addLeaf preserves the kind-rank order of a
node's leaves, the invariant the precedence theorem relies on. -/
theorem sortedByRank_insert (ls : List Leaf) (leaf : Leaf)
    (hs : sortedByRank ls = true) :
    sortedByRank (insertLeafSorted ls leaf) = true := by
  induction ls with
  | nil => rfl
  | cons a rest ih =>
    by_cases hr : leaf.typ.rank < a.typ.rank
    · simp only [insertLeafSorted, if_pos hr]
      simp [sortedByRank]
      exact ⟨Nat.le_of_lt hr, by simpa [sortedByRank] using hs⟩
    · simp only [insertLeafSorted, if_neg hr]
      have hle : a.typ.rank ≤ leaf.typ.rank := Nat.le_of_not_lt hr
      have hs' : sortedByRank rest = true := sorted_tail a rest hs
      have hins : sortedByRank (insertLeafSorted rest leaf) = true := ih hs'
      cases rest with
      | nil => simp [insertLeafSorted, sortedByRank, hle]
      | cons b rest' =>
        have hab : a.typ.rank ≤ b.typ.rank := by
          simp [sortedByRank] at hs
          exact hs.1
        by_cases hrb : leaf.typ.rank < b.typ.rank
        · simp only [insertLeafSorted, if_pos hrb] at hins ⊢
          simp [sortedByRank] at hins ⊢
          exact ⟨hle, hins⟩
        · simp only [insertLeafSorted, if_neg hrb] at hins ⊢
          simp [sortedByRank] at hins ⊢
          exact ⟨hab, hins⟩

end Macaron
